import Mathlib

/-!
Shallow embedding of the Robin Hood hash table in `src/lib.rs` of the
repository (a Rust open-addressing hash map with linear probing, Robin Hood
displacement, load-factor-triggered doubling, and backward-shift deletion).

Modelling conventions:
* Machine integers are `Nat`.  The `psl` field is a Rust `u8`; every `psl += 1`
  in the source is embedded as `(psl + 1) % 256` (release-mode wrapping
  semantics).  `psl -= 1` in `remove` only runs under a `psl ≠ 0` guard, so it
  is plain `Nat` subtraction.
* The caller-supplied hasher `H : Fn(&K) -> u32` is embedded as `hasher : K →
  Nat`; the source computes `(hash as usize) % capacity`, and casting `u32` to
  `usize` is lossless, so only the value modulo `capacity` matters.
* The resize trigger `self.len >= (self.capacity as f64 * 0.8) as usize`
  truncates the `f64` product toward zero; for every capacity below 2^50 this
  equals `capacity * 4 / 5` in `Nat` arithmetic, which is how it is embedded.
* Fallible steps are `Option`-valued: `none` models a Rust panic (index out of
  bounds, `usize` underflow in `index - 1`, remainder by zero) or a probe loop
  that fails to terminate within its fuel.  Probe loops receive fuel
  `capacity`, matching the source comment that a walk reaches an empty slot
  within `capacity` steps; theorems below prove this fuel is sufficient
  whenever an empty slot exists.
-/

namespace Hash

/-- The slot payload `Elem { key, value, psl }` from the source; `psl` is a
`u8` embedded as a `Nat` kept below 256 by the wrapping increments. -/
structure Elem (K V : Type) where
  key : K
  value : V
  psl : Nat
  deriving Repr, DecidableEq

/-- The `HashMap { buffer, capacity, hasher, len }` struct from the source.
`buffer : Vec<Option<Elem>>` becomes a `List (Option (Elem K V))`. -/
structure HashMap (K V : Type) where
  buffer : List (Option (Elem K V))
  capacity : Nat
  hasher : K → Nat
  len : Nat

/-- `with_capacity(capacity, hasher)`: an all-empty buffer of the requested
capacity and zero length.  The source performs no capacity-0 check. -/
def with_capacity (capacity : Nat) (hasher : K → Nat) : HashMap K V :=
  { buffer := List.replicate capacity none
    capacity := capacity
    hasher := hasher
    len := 0 }

/-- `new(hasher)`: `with_capacity(DEFAULT_SIZE, hasher)` with `DEFAULT_SIZE = 256`. -/
def new (hasher : K → Nat) : HashMap K V :=
  with_capacity 256 hasher

/-- The resize trigger `(capacity as f64 * 0.8) as usize`, embedded as the
exact integer `capacity * 4 / 5` (equal to the truncated `f64` product for all
realistic capacities). -/
def resizeThreshold (capacity : Nat) : Nat :=
  capacity * 4 / 5

/-- The `loop` body of `find_elem`: return the current index on an empty slot,
on `psl > elem.psl`, or on a key match; otherwise advance one slot (wrapping)
and increment the `u8` counter.  `none` models fuel exhaustion or an
out-of-bounds buffer access. -/
def findLoop [DecidableEq K] (cap : Nat) (buf : List (Option (Elem K V)))
    (key : K) : Nat → Nat → Nat → Option Nat
  | _, _, 0 => none
  | psl, index, fuel + 1 =>
    match buf[index]? with
    | none => none
    | some none => some index
    | some (some elem) =>
      if psl > elem.psl ∨ elem.key = key then some index
      else findLoop cap buf key ((psl + 1) % 256) ((index + 1) % cap) fuel

/-- `find_elem(&key)`: start at `hash % capacity` with counter 0.  With
capacity 0 the source's `% self.capacity` is a remainder by zero, which
panics, embedded as `none`. -/
def find_elem [DecidableEq K] (m : HashMap K V) (key : K) : Option Nat :=
  if m.capacity = 0 then none
  else findLoop m.capacity m.buffer key 0 (m.hasher key % m.capacity) m.capacity

/-- The re-insertion loop of `resize`: for each element of the old buffer (in
index order), `find_elem` on the partially rebuilt table, then write the old
element - with its old `psl` unchanged - directly into the returned slot and
increment `len`.  This mirrors the source exactly: it is not the insert
displacement walk, and it overwrites whatever the returned slot holds. -/
def resizeGo [DecidableEq K] : List (Elem K V) → HashMap K V → Option (HashMap K V)
  | [], acc => some acc
  | e :: rest, acc =>
    match find_elem acc e.key with
    | none => none
    | some i =>
      resizeGo rest { acc with buffer := acc.buffer.set i (some e), len := acc.len + 1 }

/-- `resize()`: double `capacity`, allocate a fresh all-empty buffer, reset
`len` to 0, then run `resizeGo` over the old buffer's occupied slots in index
order (`into_iter().flatten()`). -/
def resize [DecidableEq K] (m : HashMap K V) : Option (HashMap K V) :=
  resizeGo (m.buffer.filterMap id)
    { m with
      capacity := m.capacity * 2
      buffer := List.replicate (m.capacity * 2) none
      len := 0 }

/-- The `while let` walk of `insert`: on an empty slot place the candidate
(`true` = `len` must be incremented); on an equal key overwrite the value in
place (key and psl kept); if the candidate's psl exceeds the resident's,
swap them (Robin Hood); in either surviving case advance one slot and give
the carried candidate `psl + 1` (u8 wrap). -/
def insertLoop [DecidableEq K] (cap : Nat) :
    List (Option (Elem K V)) → Elem K V → Nat → Nat →
    Option (List (Option (Elem K V)) × Bool)
  | _, _, _, 0 => none
  | buf, new, index, fuel + 1 =>
    match buf[index]? with
    | none => none
    | some none => some (buf.set index (some new), true)
    | some (some existing) =>
      if existing.key = new.key then
        some (buf.set index (some ⟨existing.key, new.value, existing.psl⟩), false)
      else if new.psl > existing.psl then
        insertLoop cap (buf.set index (some new))
          ⟨existing.key, existing.value, (existing.psl + 1) % 256⟩
          ((index + 1) % cap) fuel
      else
        insertLoop cap buf ⟨new.key, new.value, (new.psl + 1) % 256⟩
          ((index + 1) % cap) fuel

/-- The walk phase of `insert(key, value)` (everything after the threshold
check): run the displacement walk from `hash % capacity` with a fresh
candidate of psl 0, then store the resulting buffer and bump `len` when a new
slot was filled.  With capacity 0 (possible, since resize doubles 0 to 0) the
source reaches `hash % 0`, a panic, embedded as `none`. -/
def insertWalk [DecidableEq K] (m1 : HashMap K V) (key : K) (value : V) :
    Option (HashMap K V) :=
  if m1.capacity = 0 then none
  else
    match insertLoop m1.capacity m1.buffer ⟨key, value, 0⟩
        (m1.hasher key % m1.capacity) m1.capacity with
    | none => none
    | some (buf, true) => some { m1 with buffer := buf, len := m1.len + 1 }
    | some (buf, false) => some { m1 with buffer := buf }

/-- `insert(key, value)`: resize first when `len >= threshold`, then run the
walk phase. -/
def insert [DecidableEq K] (m : HashMap K V) (key : K) (value : V) :
    Option (HashMap K V) :=
  match (if m.len ≥ resizeThreshold m.capacity then resize m else some m) with
  | none => none
  | some m1 => insertWalk m1 key value

/-- `get(key)`: `find_elem`, then return the value only on a key match.  The
outer `Option` models panic/divergence; the inner one is the source's return
value. -/
def get [DecidableEq K] (m : HashMap K V) (key : K) : Option (Option V) :=
  match find_elem m key with
  | none => none
  | some index =>
    match m.buffer[index]? with
    | none => none
    | some none => some none
    | some (some elem) => some (if elem.key = key then some elem.value else none)

/-- The backward-shift loop of `remove`, embedded statement by statement:
stop at an empty slot or at `psl == 0`; otherwise decrement the resident's
psl in place, then execute `buffer[index] = buffer[index - 1].take()` - the
source subtracts without wrapping, so `index = 0` underflows `usize`
(a panic, embedded as `none`; an out-of-range read of `index - 1` would
likewise panic and is also embedded as `none`). -/
def removeLoop (cap : Nat) :
    List (Option (Elem K V)) → Nat → Nat → Option (List (Option (Elem K V)))
  | _, _, 0 => none
  | buf, index, fuel + 1 =>
    match buf[index]? with
    | none => none
    | some none => some buf
    | some (some elem) =>
      if elem.psl = 0 then some buf
      else if index = 0 then none
      else
        match (buf.set index (some ⟨elem.key, elem.value, elem.psl - 1⟩))[index - 1]? with
        | none => none
        | some taken =>
          removeLoop cap
            (((buf.set index (some ⟨elem.key, elem.value, elem.psl - 1⟩)).set
                (index - 1) none).set index taken)
            ((index + 1) % cap) fuel

/-- `remove(key)`: `find_elem`; on a key match clear the slot and run the
backward-shift loop from the next index.  The source never decrements
`self.len`. -/
def remove [DecidableEq K] (m : HashMap K V) (key : K) : Option (HashMap K V) :=
  match find_elem m key with
  | none => none
  | some index =>
    match m.buffer[index]? with
    | none => none
    | some none => some m
    | some (some elem) =>
      if elem.key = key then
        match removeLoop m.capacity (m.buffer.set index none)
            ((index + 1) % m.capacity) m.capacity with
        | none => none
        | some buf => some { m with buffer := buf }
      else some m

/-- Number of occupied slots of a buffer. -/
def countOccupied (buf : List (Option (Elem K V))) : Nat :=
  buf.countP fun o => o.isSome

/-- Fold `insert` over a list of key-value pairs, propagating panics. -/
def insertSeq [DecidableEq K] (m : HashMap K V) :
    List (K × V) → Option (HashMap K V)
  | [] => some m
  | (k, v) :: rest =>
    match insert m k v with
    | none => none
    | some m' => insertSeq m' rest

/-- Whether the slot at index `i` satisfies the spec's psl invariant: an
occupied slot's stored psl equals `(i - ideal_bucket(key)) mod capacity`,
written with `Nat` arithmetic as `(i + capacity - hash % capacity) % capacity`
(equal to the signed expression for `i < capacity`). -/
def pslSlotOk (m : HashMap K V) (i : Nat) : Bool :=
  match (m.buffer[i]?).join with
  | none => true
  | some e => e.psl == (i + m.capacity - m.hasher e.key % m.capacity) % m.capacity

/-- The spec's psl invariant over the whole buffer. -/
def pslInvariant (m : HashMap K V) : Bool :=
  (List.range m.buffer.length).all (pslSlotOk m)

/-- Hasher for the resize counterexamples: keys 0..6 hash to 4,3,3,2,2,4,0. -/
def exHasher : Nat → Nat := fun k => [4, 3, 3, 2, 2, 4, 0].getD k 0

/-- Hasher sending every key to 5 (probe-run scenarios for remove). -/
def constHasher : Nat → Nat := fun _ => 5

/-! ### Helper lemmas about buffers -/

theorem lt_of_getElem?_eq_some {α : Type} {l : List α} {i : Nat} {a : α}
    (h : l[i]? = some a) : i < l.length := by
  by_contra hge
  rw [List.getElem?_eq_none (Nat.le_of_not_lt hge)] at h
  exact Option.noConfusion h

theorem countOccupied_cons (o : Option (Elem K V)) (t : List (Option (Elem K V))) :
    countOccupied (o :: t) = countOccupied t + if o.isSome then 1 else 0 :=
  List.countP_cons _ _ _

theorem countOccupied_replicate_none (n : Nat) :
    countOccupied (List.replicate n (none : Option (Elem K V))) = 0 := by
  induction n with
  | zero => rfl
  | succ n ih => simp [List.replicate_succ, countOccupied_cons, ih]

theorem countOccupied_set_some_of_some :
    ∀ (buf : List (Option (Elem K V))) (i : Nat) (e f : Elem K V),
      buf[i]? = some (some f) →
      countOccupied (buf.set i (some e)) = countOccupied buf
  | [], i, _, _, h => by simp at h
  | o :: t, 0, e, f, h => by
    rw [List.getElem?_cons_zero] at h
    obtain rfl : o = some f := Option.some.inj h
    simp [countOccupied_cons]
  | o :: t, i + 1, e, f, h => by
    rw [List.getElem?_cons_succ] at h
    simp only [List.set_cons_succ, countOccupied_cons,
      countOccupied_set_some_of_some t i e f h]

theorem countOccupied_set_some_of_none :
    ∀ (buf : List (Option (Elem K V))) (i : Nat) (e : Elem K V),
      buf[i]? = some none →
      countOccupied (buf.set i (some e)) = countOccupied buf + 1
  | [], i, _, h => by simp at h
  | o :: t, 0, e, h => by
    rw [List.getElem?_cons_zero] at h
    obtain rfl : o = none := Option.some.inj h
    simp [countOccupied_cons]
  | o :: t, i + 1, e, h => by
    rw [List.getElem?_cons_succ] at h
    simp only [List.set_cons_succ, countOccupied_cons,
      countOccupied_set_some_of_none t i e h]
    omega

theorem countOccupied_set_none_of_some :
    ∀ (buf : List (Option (Elem K V))) (i : Nat) (f : Elem K V),
      buf[i]? = some (some f) →
      countOccupied (buf.set i none) + 1 = countOccupied buf
  | [], i, _, h => by simp at h
  | o :: t, 0, f, h => by
    rw [List.getElem?_cons_zero] at h
    obtain rfl : o = some f := Option.some.inj h
    simp [countOccupied_cons]
  | o :: t, i + 1, f, h => by
    rw [List.getElem?_cons_succ] at h
    simp only [List.set_cons_succ, countOccupied_cons]
    have := countOccupied_set_none_of_some t i f h
    omega

theorem countOccupied_set_none_le :
    ∀ (buf : List (Option (Elem K V))) (i : Nat),
      countOccupied (buf.set i none) ≤ countOccupied buf
  | [], _ => Nat.le_refl _
  | o :: t, 0 => by
    simp only [List.set_cons_zero, countOccupied_cons]
    cases o <;> simp
  | o :: t, i + 1 => by
    simp only [List.set_cons_succ, countOccupied_cons]
    exact Nat.add_le_add_right (countOccupied_set_none_le t i) _

theorem countOccupied_set_some_le :
    ∀ (buf : List (Option (Elem K V))) (i : Nat) (e : Elem K V),
      countOccupied (buf.set i (some e)) ≤ countOccupied buf + 1
  | [], _, _ => Nat.le_succ _
  | o :: t, 0, e => by
    simp only [List.set_cons_zero, countOccupied_cons]
    cases o <;> simp
  | o :: t, i + 1, e => by
    simp only [List.set_cons_succ, countOccupied_cons]
    have := countOccupied_set_some_le t i e
    omega

theorem length_filterMap_id :
    ∀ buf : List (Option (Elem K V)), (buf.filterMap id).length = countOccupied buf
  | [] => rfl
  | o :: t => by
    cases o <;>
      simp [List.filterMap_cons, countOccupied_cons, length_filterMap_id t]

theorem exists_none_of_count_lt :
    ∀ buf : List (Option (Elem K V)), countOccupied buf < buf.length →
      ∃ j, j < buf.length ∧ buf[j]? = some none
  | [], h => absurd h (Nat.lt_irrefl 0)
  | o :: t, h => by
    cases o with
    | none => exact ⟨0, Nat.succ_pos _, List.getElem?_cons_zero⟩
    | some e =>
      rw [countOccupied_cons] at h
      simp only [Option.isSome_some, if_pos] at h
      obtain ⟨j, hj, hje⟩ :=
        exists_none_of_count_lt t (by simpa using Nat.lt_of_add_lt_add_right h)
      exact ⟨j + 1, by simpa using hj, by simpa using hje⟩

theorem add_mod_ne_self {cap start k : Nat} (hs : start < cap) (hk : k < cap)
    (hk0 : k ≠ 0) : (start + k) % cap ≠ start := by
  intro h
  rcases Nat.lt_or_ge (start + k) cap with hlt | hge
  · rw [Nat.mod_eq_of_lt hlt] at h
    omega
  · rw [Nat.mod_eq_sub_mod hge, Nat.mod_eq_of_lt (by omega)] at h
    omega

theorem exists_none_ahead {buf : List (Option (Elem K V))} {cap : Nat} (start : Nat)
    (hlen : buf.length = cap) (hstart : start < cap)
    (h : ∃ j, j < cap ∧ buf[j]? = some none) :
    ∃ k, k < cap ∧ buf[(start + k) % cap]? = some none := by
  obtain ⟨j, hj, hje⟩ := h
  refine ⟨(j + cap - start) % cap, Nat.mod_lt _ (by omega), ?_⟩
  have h1 : (start + (j + cap - start) % cap) % cap = j := by
    rw [Nat.add_comm start, Nat.mod_add_mod]
    have h2 : j + cap - start + start = j + cap := by omega
    rw [h2, Nat.add_mod_right, Nat.mod_eq_of_lt hj]
  rw [h1]
  exact hje

/-! ### Termination and preservation lemmas for the probe loops -/

theorem findLoop_isSome [DecidableEq K] {cap : Nat} {buf : List (Option (Elem K V))}
    {key : K} (hlen : buf.length = cap) :
    ∀ (fuel psl start : Nat), start < cap →
      (∃ k, k < fuel ∧ buf[(start + k) % cap]? = some none) →
      (findLoop cap buf key psl start fuel).isSome := by
  intro fuel
  induction fuel with
  | zero =>
    intro psl start _ h
    obtain ⟨k, hk, _⟩ := h
    omega
  | succ fuel ih =>
    intro psl start hstart h
    obtain ⟨k, hkf, hke⟩ := h
    have hlt : start < buf.length := hlen ▸ hstart
    have hcap : 0 < cap := Nat.lt_of_le_of_lt (Nat.zero_le _) hstart
    rw [findLoop]
    cases hbs : buf[start]? with
    | none =>
      rw [List.getElem?_eq_getElem hlt] at hbs
      exact Option.noConfusion hbs
    | some o =>
      cases o with
      | none => simp
      | some existing =>
        by_cases hstop : psl > existing.psl ∨ existing.key = key
        · simp [hstop]
        · simp only [hstop, if_false]
          have hk0 : k ≠ 0 := by
            intro rfl0
            subst rfl0
            rw [Nat.add_zero, Nat.mod_eq_of_lt hstart, hbs] at hke
            exact Option.noConfusion (Option.some.inj hke)
          obtain ⟨k', rfl⟩ : ∃ k', k = k' + 1 := ⟨k - 1, by omega⟩
          refine ih _ _ (Nat.mod_lt _ hcap) ⟨k', by omega, ?_⟩
          rw [Nat.mod_add_mod]
          have harr : start + 1 + k' = start + (k' + 1) := by omega
          rw [harr]
          exact hke

theorem findLoop_lt [DecidableEq K] {cap : Nat} {buf : List (Option (Elem K V))}
    {key : K} :
    ∀ (fuel psl start i : Nat), findLoop cap buf key psl start fuel = some i →
      i < buf.length := by
  intro fuel
  induction fuel with
  | zero => intro psl start i h; exact Option.noConfusion h
  | succ fuel ih =>
    intro psl start i h
    rw [findLoop] at h
    split at h
    · exact Option.noConfusion h
    · next hsc =>
      obtain rfl : start = i := Option.some.inj h
      exact lt_of_getElem?_eq_some hsc
    · next elem hsc =>
      split at h
      · obtain rfl : start = i := Option.some.inj h
        exact lt_of_getElem?_eq_some hsc
      · exact ih _ _ _ h

theorem countOccupied_le_length (buf : List (Option (Elem K V))) :
    countOccupied buf ≤ buf.length :=
  List.countP_le_length _

theorem find_elem_isSome [DecidableEq K] (m : HashMap K V) (key : K)
    (hlen : m.buffer.length = m.capacity) (hpos : 0 < m.capacity)
    (hempty : ∃ j, j < m.capacity ∧ m.buffer[j]? = some none) :
    (find_elem m key).isSome := by
  rw [find_elem, if_neg (Nat.pos_iff_ne_zero.mp hpos)]
  have hstart : m.hasher key % m.capacity < m.capacity := Nat.mod_lt _ hpos
  obtain ⟨k, hk, hke⟩ := exists_none_ahead _ hlen hstart hempty
  exact findLoop_isSome hlen _ _ _ hstart ⟨k, hk, hke⟩

theorem find_elem_lt [DecidableEq K] {m : HashMap K V} {key : K} {i : Nat}
    (h : find_elem m key = some i) : i < m.buffer.length := by
  rw [find_elem] at h
  by_cases hz : m.capacity = 0
  · rw [if_pos hz] at h
    exact Option.noConfusion h
  · rw [if_neg hz] at h
    exact findLoop_lt _ _ _ _ h

theorem insertLoop_isSome [DecidableEq K] {cap : Nat} :
    ∀ (fuel : Nat) (buf : List (Option (Elem K V))) (new : Elem K V) (start : Nat),
      buf.length = cap → start < cap →
      (∃ k, k < fuel ∧ k < cap ∧ buf[(start + k) % cap]? = some none) →
      (insertLoop cap buf new start fuel).isSome := by
  intro fuel
  induction fuel with
  | zero =>
    intro buf new start _ _ h
    obtain ⟨k, hk, _⟩ := h
    omega
  | succ fuel ih =>
    intro buf new start hlen hstart h
    obtain ⟨k, hkf, hkc, hke⟩ := h
    have hlt : start < buf.length := hlen ▸ hstart
    have hcap : 0 < cap := Nat.lt_of_le_of_lt (Nat.zero_le _) hstart
    rw [insertLoop]
    cases hbs : buf[start]? with
    | none =>
      rw [List.getElem?_eq_getElem hlt] at hbs
      exact Option.noConfusion hbs
    | some o =>
      cases o with
      | none => simp
      | some existing =>
        by_cases hkey : existing.key = new.key
        · simp [hkey]
        · simp only [hkey, if_false]
          have hk0 : k ≠ 0 := by
            intro rfl0
            subst rfl0
            rw [Nat.add_zero, Nat.mod_eq_of_lt hstart, hbs] at hke
            exact Option.noConfusion (Option.some.inj hke)
          obtain ⟨k', rfl⟩ : ∃ k', k = k' + 1 := ⟨k - 1, by omega⟩
          have hne : start ≠ (start + (k' + 1)) % cap :=
            fun hcontra => add_mod_ne_self hstart hkc hk0 hcontra.symm
          have hstep : ∀ buf' : List (Option (Elem K V)), buf'.length = cap →
              buf'[(start + (k' + 1)) % cap]? = some none →
              (insertLoop cap buf' ⟨new.key, new.value, (new.psl + 1) % 256⟩
                ((start + 1) % cap) fuel).isSome ∧
              (insertLoop cap buf'
                ⟨existing.key, existing.value, (existing.psl + 1) % 256⟩
                ((start + 1) % cap) fuel).isSome := by
            intro buf' hlen' hke'
            constructor <;>
              · refine ih _ _ _ hlen' (Nat.mod_lt _ hcap) ⟨k', by omega, by omega, ?_⟩
                rw [Nat.mod_add_mod]
                have harr : start + 1 + k' = start + (k' + 1) := by omega
                rw [harr]
                exact hke'
          by_cases hpsl : new.psl > existing.psl
          · simp only [hpsl, if_true]
            exact (hstep (buf.set start (some new)) (by simp [hlen])
              (by rw [List.getElem?_set_ne hne]; exact hke)).2
          · simp only [hpsl, if_false]
            exact (hstep buf hlen hke).1

theorem insertLoop_length [DecidableEq K] {cap : Nat} :
    ∀ (fuel : Nat) (buf : List (Option (Elem K V))) (new : Elem K V) (start : Nat)
      (buf' : List (Option (Elem K V))) (b : Bool),
      insertLoop cap buf new start fuel = some (buf', b) →
      buf'.length = buf.length := by
  intro fuel
  induction fuel with
  | zero => intro buf new start buf' b h; exact Option.noConfusion h
  | succ fuel ih =>
    intro buf new start buf' b h
    rw [insertLoop] at h
    split at h
    · exact Option.noConfusion h
    · next hsc =>
      obtain ⟨h1, _⟩ := Prod.mk.injEq .. ▸ (Option.some.inj h)
      rw [← h1]
      simp
    · next elem hsc =>
      split at h
      · obtain ⟨h1, _⟩ := Prod.mk.injEq .. ▸ (Option.some.inj h)
        rw [← h1]
        simp
      · split at h
        · rw [ih _ _ _ _ _ h]
          simp
        · exact ih _ _ _ _ _ h

theorem insertLoop_count [DecidableEq K] {cap : Nat} :
    ∀ (fuel : Nat) (buf : List (Option (Elem K V))) (new : Elem K V) (start : Nat)
      (buf' : List (Option (Elem K V))) (b : Bool),
      insertLoop cap buf new start fuel = some (buf', b) →
      countOccupied buf' = countOccupied buf + (if b then 1 else 0) := by
  intro fuel
  induction fuel with
  | zero => intro buf new start buf' b h; exact Option.noConfusion h
  | succ fuel ih =>
    intro buf new start buf' b h
    rw [insertLoop] at h
    split at h
    · exact Option.noConfusion h
    · next hsc =>
      obtain ⟨h1, h2⟩ := Prod.mk.injEq .. ▸ (Option.some.inj h)
      rw [← h1, ← h2, countOccupied_set_some_of_none _ _ _ hsc]
      simp
    · next elem hsc =>
      split at h
      · obtain ⟨h1, h2⟩ := Prod.mk.injEq .. ▸ (Option.some.inj h)
        rw [← h1, ← h2, countOccupied_set_some_of_some _ _ _ _ hsc]
        simp
      · split at h
        · rw [ih _ _ _ _ _ h, countOccupied_set_some_of_some _ _ _ _ hsc]
        · exact ih _ _ _ _ _ h

theorem removeLoop_length {cap : Nat} :
    ∀ (fuel : Nat) (buf : List (Option (Elem K V))) (index : Nat)
      (buf' : List (Option (Elem K V))),
      removeLoop cap buf index fuel = some buf' → buf'.length = buf.length := by
  intro fuel
  induction fuel with
  | zero => intro buf index buf' h; exact Option.noConfusion h
  | succ fuel ih =>
    intro buf index buf' h
    rw [removeLoop] at h
    split at h
    · exact Option.noConfusion h
    · next hsc =>
      obtain rfl := Option.some.inj h
      rfl
    · next elem hsc =>
      split at h
      · obtain rfl := Option.some.inj h
        rfl
      · split at h
        · exact Option.noConfusion h
        · split at h
          · exact Option.noConfusion h
          · rw [ih _ _ _ h]
            simp

theorem removeLoop_count {cap : Nat} :
    ∀ (fuel : Nat) (buf : List (Option (Elem K V))) (index : Nat)
      (buf' : List (Option (Elem K V))),
      removeLoop cap buf index fuel = some buf' →
      countOccupied buf' ≤ countOccupied buf := by
  intro fuel
  induction fuel with
  | zero => intro buf index buf' h; exact Option.noConfusion h
  | succ fuel ih =>
    intro buf index buf' h
    rw [removeLoop] at h
    split at h
    · exact Option.noConfusion h
    · next hsc =>
      obtain rfl := Option.some.inj h
      exact Nat.le_refl _
    · next elem hsc =>
      split at h
      · obtain rfl := Option.some.inj h
        exact Nat.le_refl _
      · split at h
        · exact Option.noConfusion h
        · next hne0 =>
          split at h
          · exact Option.noConfusion h
          · next taken htk =>
            have hidx : index < buf.length := lt_of_getElem?_eq_some hsc
            have hc1 : countOccupied
                (buf.set index (some ⟨elem.key, elem.value, elem.psl - 1⟩)) =
                countOccupied buf :=
              countOccupied_set_some_of_some _ _ _ _ hsc
            have hmain := ih _ _ _ h
            have hmid : ((buf.set index
                (some ⟨elem.key, elem.value, elem.psl - 1⟩)).set
                  (index - 1) none)[index]? =
                some (some ⟨elem.key, elem.value, elem.psl - 1⟩) := by
              rw [List.getElem?_set_ne (show index - 1 ≠ index by omega)]
              exact List.getElem?_set_eq_of_lt _ (by simpa using hidx)
            cases taken with
            | none =>
              have hstep1 := countOccupied_set_none_le
                (buf.set index (some ⟨elem.key, elem.value, elem.psl - 1⟩))
                (index - 1)
              have hstep2 := countOccupied_set_none_le
                ((buf.set index (some ⟨elem.key, elem.value, elem.psl - 1⟩)).set
                  (index - 1) none) index
              omega
            | some v =>
              have hstep1 := countOccupied_set_none_of_some _ _ _ htk
              have hstep2 := countOccupied_set_some_of_some _ _ v _ hmid
              omega

/-! ### The resize re-insertion loop -/

theorem resizeGo_props [DecidableEq K] :
    ∀ (es : List (Elem K V)) (acc acc' : HashMap K V),
      resizeGo es acc = some acc' →
      acc'.capacity = acc.capacity ∧ acc'.buffer.length = acc.buffer.length ∧
        acc'.len = acc.len + es.length ∧ acc'.hasher = acc.hasher ∧
        countOccupied acc'.buffer ≤ countOccupied acc.buffer + es.length := by
  intro es
  induction es with
  | nil =>
    intro acc acc' h
    obtain rfl := Option.some.inj h
    simp
  | cons e rest ih =>
    intro acc acc' h
    rw [resizeGo] at h
    cases hf : find_elem acc e.key with
    | none => rw [hf] at h; exact Option.noConfusion h
    | some i =>
      rw [hf] at h
      obtain ⟨h1, h2, h3, h4, h5⟩ := ih _ _ h
      have h1' : acc'.capacity = acc.capacity := h1
      have h2' : acc'.buffer.length = (acc.buffer.set i (some e)).length := h2
      have h3' : acc'.len = acc.len + 1 + rest.length := h3
      have h4' : acc'.hasher = acc.hasher := h4
      have h5' : countOccupied acc'.buffer ≤
          countOccupied (acc.buffer.set i (some e)) + rest.length := h5
      have hle := countOccupied_set_some_le acc.buffer i e
      refine ⟨h1', by simpa using h2',
        by simp only [List.length_cons]; omega, h4', ?_⟩
      simp only [List.length_cons]
      omega

theorem resizeGo_isSome [DecidableEq K] :
    ∀ (es : List (Elem K V)) (acc : HashMap K V),
      acc.buffer.length = acc.capacity →
      countOccupied acc.buffer + es.length ≤ acc.capacity →
      (resizeGo es acc).isSome := by
  intro es
  induction es with
  | nil =>
    intro acc _ _
    rw [resizeGo]
    simp
  | cons e rest ih =>
    intro acc hlen hcount
    rw [resizeGo]
    rw [List.length_cons] at hcount
    have hpos : 0 < acc.capacity := by omega
    have hlt : countOccupied acc.buffer < acc.capacity := by omega
    have hempty : ∃ j, j < acc.capacity ∧ acc.buffer[j]? = some none := by
      obtain ⟨j, hj, hje⟩ := exists_none_of_count_lt acc.buffer (by omega)
      exact ⟨j, by omega, hje⟩
    have hfe := find_elem_isSome acc e.key hlen hpos hempty
    cases hf : find_elem acc e.key with
    | none => rw [hf] at hfe; simp at hfe
    | some i =>
      apply ih
      · show (acc.buffer.set i (some e)).length = acc.capacity
        simpa using hlen
      · show countOccupied (acc.buffer.set i (some e)) + rest.length ≤
          acc.capacity
        have := countOccupied_set_some_le acc.buffer i e
        omega

theorem resize_isSome [DecidableEq K] (m : HashMap K V)
    (hlen : m.buffer.length = m.capacity) : (resize m).isSome := by
  rw [resize]
  apply resizeGo_isSome
  · simp
  · show countOccupied (List.replicate (m.capacity * 2) none) +
      (m.buffer.filterMap id).length ≤ m.capacity * 2
    rw [length_filterMap_id, countOccupied_replicate_none]
    have h2 := countOccupied_le_length m.buffer
    omega

theorem resize_props [DecidableEq K] {m m1 : HashMap K V}
    (h : resize m = some m1) :
    m1.capacity = m.capacity * 2 ∧ m1.buffer.length = m.capacity * 2 ∧
      m1.len = countOccupied m.buffer ∧ m1.hasher = m.hasher ∧
      countOccupied m1.buffer ≤ countOccupied m.buffer := by
  rw [resize] at h
  obtain ⟨h1, h2, h3, h4, h5⟩ := resizeGo_props _ _ _ h
  have hfl : (m.buffer.filterMap id).length = countOccupied m.buffer :=
    length_filterMap_id m.buffer
  have hrep : countOccupied (List.replicate (m.capacity * 2)
      (none : Option (Elem K V))) = 0 := countOccupied_replicate_none _
  have h1' : m1.capacity = m.capacity * 2 := h1
  have h2' : m1.buffer.length =
      (List.replicate (m.capacity * 2) (none : Option (Elem K V))).length := h2
  have h3' : m1.len = 0 + (m.buffer.filterMap id).length := h3
  have h4' : m1.hasher = m.hasher := h4
  have h5' : countOccupied m1.buffer ≤
      countOccupied (List.replicate (m.capacity * 2)
        (none : Option (Elem K V))) + (m.buffer.filterMap id).length := h5
  exact ⟨h1', by simpa using h2', by omega, h4', by omega⟩

/-! ### Well-formedness and its preservation -/

/-- The structural facts about a table state needed for probe-walk
termination; they hold in every reachable state. -/
def WF (m : HashMap K V) : Prop :=
  m.buffer.length = m.capacity ∧ 0 < m.capacity ∧
    countOccupied m.buffer ≤ m.len

theorem insertWalk_isSome [DecidableEq K] (m1 : HashMap K V) (key : K)
    (value : V) (hlen : m1.buffer.length = m1.capacity)
    (hpos : 0 < m1.capacity)
    (hcnt : countOccupied m1.buffer < m1.capacity) :
    (insertWalk m1 key value).isSome := by
  rw [insertWalk, if_neg (Nat.pos_iff_ne_zero.mp hpos)]
  have hstart : m1.hasher key % m1.capacity < m1.capacity := Nat.mod_lt _ hpos
  have hempty : ∃ j, j < m1.capacity ∧ m1.buffer[j]? = some none := by
    obtain ⟨j, hj, hje⟩ := exists_none_of_count_lt m1.buffer (by omega)
    exact ⟨j, by omega, hje⟩
  obtain ⟨k, hk, hke⟩ := exists_none_ahead _ hlen hstart hempty
  have hloop := insertLoop_isSome m1.capacity m1.buffer ⟨key, value, 0⟩ _
    hlen hstart ⟨k, hk, hk, hke⟩
  cases hl : insertLoop m1.capacity m1.buffer ⟨key, value, 0⟩
      (m1.hasher key % m1.capacity) m1.capacity with
  | none => rw [hl] at hloop; simp at hloop
  | some p =>
    obtain ⟨buf, b⟩ := p
    cases b <;> simp

theorem insertWalk_WF [DecidableEq K] {m1 m' : HashMap K V} {key : K}
    {value : V} (hwf : WF m1) (h : insertWalk m1 key value = some m') :
    WF m' := by
  obtain ⟨hlen, hpos, hocc⟩ := hwf
  rw [insertWalk] at h
  split at h
  · exact Option.noConfusion h
  · split at h
    · exact Option.noConfusion h
    · next buf hl =>
      obtain rfl := Option.some.inj h
      have hblen := insertLoop_length _ _ _ _ _ _ hl
      have hbcnt := insertLoop_count _ _ _ _ _ _ hl
      simp at hbcnt
      refine ⟨?_, hpos, ?_⟩
      · show buf.length = m1.capacity
        rw [hblen, hlen]
      · show countOccupied buf ≤ m1.len + 1
        omega
    · next buf hl =>
      obtain rfl := Option.some.inj h
      have hblen := insertLoop_length _ _ _ _ _ _ hl
      have hbcnt := insertLoop_count _ _ _ _ _ _ hl
      simp at hbcnt
      refine ⟨?_, hpos, ?_⟩
      · show buf.length = m1.capacity
        rw [hblen, hlen]
      · show countOccupied buf ≤ m1.len
        omega

theorem insert_isSome [DecidableEq K] (m : HashMap K V) (key : K) (value : V)
    (hwf : WF m) : (insert m key value).isSome := by
  obtain ⟨hlen, hpos, hocc⟩ := hwf
  rw [insert]
  by_cases hth : m.len ≥ resizeThreshold m.capacity
  · rw [if_pos hth]
    have hrs := resize_isSome m hlen
    cases hr : resize m with
    | none => rw [hr] at hrs; simp at hrs
    | some m1 =>
      obtain ⟨h1, h2, h3, h4, h5⟩ := resize_props hr
      have h2' := countOccupied_le_length m.buffer
      exact insertWalk_isSome m1 key value (by rw [h2, h1])
        (by rw [h1]; omega) (by rw [h1]; omega)
  · rw [if_neg hth]
    have hth' : m.len < resizeThreshold m.capacity := Nat.lt_of_not_le hth
    have hdiv : resizeThreshold m.capacity < m.capacity := by
      rw [resizeThreshold]
      omega
    exact insertWalk_isSome m key value hlen hpos (by omega)

theorem insert_WF [DecidableEq K] {m m' : HashMap K V} {key : K} {value : V}
    (hwf : WF m) (h : insert m key value = some m') : WF m' := by
  obtain ⟨hlen, hpos, hocc⟩ := hwf
  rw [insert] at h
  by_cases hth : m.len ≥ resizeThreshold m.capacity
  · rw [if_pos hth] at h
    cases hr : resize m with
    | none => rw [hr] at h; exact Option.noConfusion h
    | some m1 =>
      rw [hr] at h
      obtain ⟨h1, h2, h3, h4, h5⟩ := resize_props hr
      exact insertWalk_WF ⟨by rw [h2, h1], by rw [h1]; omega, by omega⟩ h
  · rw [if_neg hth] at h
    exact insertWalk_WF ⟨hlen, hpos, hocc⟩ h

theorem remove_WF [DecidableEq K] {m m' : HashMap K V} {key : K}
    (hwf : WF m) (h : remove m key = some m') : WF m' := by
  obtain ⟨hlen, hpos, hocc⟩ := hwf
  rw [remove] at h
  split at h
  · exact Option.noConfusion h
  · next i hf =>
    split at h
    · exact Option.noConfusion h
    · obtain rfl := Option.some.inj h
      exact ⟨hlen, hpos, hocc⟩
    · next elem hsc =>
      split at h
      · split at h
        · exact Option.noConfusion h
        · next buf hrl =>
          obtain rfl := Option.some.inj h
          have hrlen := removeLoop_length _ _ _ _ hrl
          have hrcnt := removeLoop_count _ _ _ _ hrl
          have hset : countOccupied (m.buffer.set i none) ≤
              countOccupied m.buffer := countOccupied_set_none_le _ _
          refine ⟨?_, hpos, ?_⟩
          · simp only []
            rw [hrlen]
            simpa using hlen
          · simp only []
            omega
      · obtain rfl := Option.some.inj h
        exact ⟨hlen, hpos, hocc⟩

/-! ### Reachable states -/

/-- Table states reachable by the public API from a construction with
positive capacity. -/
inductive Reachable [DecidableEq K] : HashMap K V → Prop
  | init (c : Nat) (h : K → Nat) (hc : 0 < c) :
      Reachable (with_capacity c h)
  | ins (m m' : HashMap K V) (key : K) (value : V) :
      Reachable m → insert m key value = some m' → Reachable m'
  | rem (m m' : HashMap K V) (key : K) :
      Reachable m → remove m key = some m' → Reachable m'

theorem reachable_WF [DecidableEq K] {m : HashMap K V}
    (h : Reachable m) : WF m := by
  induction h with
  | init c hsh hc =>
    refine ⟨by simp [with_capacity], by simpa [with_capacity] using hc, ?_⟩
    simp [with_capacity, countOccupied_replicate_none]
  | ins m m' key value _ hstep ih => exact insert_WF ih hstep
  | rem m m' key _ hstep ih => exact remove_WF ih hstep

/-! ### Claim theorems -/

/-- Claim C1 (refuted by the code): the round-trip property fails.  Inserting
the seven pairwise-distinct keys 0..6 (values 10..16) with the pure hasher
`exHasher` into a capacity-4 table triggers resizes at the fourth and seventh
inserts; during the second resize the re-insertion loop overwrites the slot
holding key 5 (its `find_elem` stops on a stale-psl entry and `resize` writes
over it), so the final `get 5` reports the key absent instead of returning 15.
The outer `some` shows the run finishes without panic; the inner `none` is
`get`'s answer. -/
theorem c1_roundTrip_fails :
    (insertSeq (with_capacity 4 exHasher)
        [(0, 10), (1, 11), (2, 12), (3, 13), (4, 14), (5, 15), (6, 16)]).bind
      (fun m => get m 5) = some none := by decide

/-- Claim C2 (refuted by the code): after the resize triggered by the fourth
insert, the occupied slot 5 holds key 1 with stored psl 0, while its ideal
bucket is `exHasher 1 % 8 = 3`, so the required value is `(5 - 3) mod 8 = 2`:
`resize` re-inserts entries via `find_elem` keeping their old psl instead of
recomputing it, violating the psl invariant. -/
theorem c2_psl_invariant_violated :
    (insertSeq (with_capacity 4 exHasher)
        [(0, 10), (1, 11), (2, 12), (3, 13)]).map
      (fun m => (m.capacity, (m.buffer[5]?).join.map (fun e => (e.key, e.psl)),
        pslSlotOk m 5, pslInvariant m))
      = some (8, some (1, 0), false, false) := by decide

/-- Claim C3 (refuted by the code): resize does double capacity (4 to 16 over
two threshold crossings) and rebuilds from scratch, but it does not re-insert
via the insert-displacement logic - it places entries by `find_elem` with
their stale psl and overwrites occupied slots - so after the second resize
only 6 of the 7 distinct inserted keys remain in the buffer (`len` still
counts 7). -/
theorem c3_resize_loses_entries :
    (insertSeq (with_capacity 4 exHasher)
        [(0, 10), (1, 11), (2, 12), (3, 13), (4, 14), (5, 15), (6, 16)]).map
      (fun m => (m.capacity, m.len, countOccupied m.buffer))
      = some (16, 7, 6) := by decide

/-- Claim C4 (refuted by the code): after inserting one key and removing it,
`get` does report the key absent, but `len` is still 1 while zero slots are
occupied: `remove` never decrements `self.len`, contradicting the claim's
"length decremented by exactly one" (and the repository's own
`test_insert_overwrite_removed` assertion). -/
theorem c4_remove_never_decrements_len :
    ((insert (with_capacity 16 constHasher) 0 10).bind
        (fun m => remove m 0)).map
      (fun m => (m.len, countOccupied m.buffer)) = some (1, 0) ∧
    ((insert (with_capacity 16 constHasher) 0 10).bind
        (fun m => remove m 0)).bind (fun m => get m 0) = some none :=
  ⟨by decide, by decide⟩

/-- Claim C5 (refuted by the code): with both keys hashing to bucket 5, key 0
sits at slot 5 (psl 0) and key 1 at slot 6 (psl 1).  Removing key 0 should
shift key 1 back to slot 5 with psl 0; instead the loop executes
`buffer[index] = buffer[index - 1].take()` - the assignment direction is
reversed - which destroys key 1 entirely: both slots end empty and `get 1`
reports absent. -/
theorem c5_backward_shift_destroys_run :
    ((insertSeq (with_capacity 16 constHasher) [(0, 10), (1, 11)]).bind
        (fun m => remove m 0)).map
      (fun m => (m.buffer[5]?, m.buffer[6]?, get m 1))
      = some (some none, some none, some none) := by decide

/-- Claim C6 (refuted by the code): after a single insert and remove the
table has zero occupied slots but `len = 1`, because `remove` never
decrements `len` (and after a lossy resize `len` also over-counts, see the
C3 theorem), so `len` does not equal the count of occupied slots after every
operation. -/
theorem c6_len_desyncs_from_occupancy :
    ((insert (with_capacity 8 constHasher) 3 30).bind
        (fun m => remove m 3)).map
      (fun m => (m.len, countOccupied m.buffer)) = some (1, 0) := by decide

/-- Claim C7 (refuted by the code): inserting key 5 twice with an intervening
threshold crossing breaks the overwrite contract.  After the first six
inserts `len = 6`; the second insert of key 5 first triggers the resize,
which loses the existing copy of key 5, so the walk adds key 5 afresh and
`len` becomes 7 instead of staying 6 (`get` does return the second value). -/
theorem c7_overwrite_changes_len :
    ((insertSeq (with_capacity 4 exHasher)
        [(0, 10), (1, 11), (2, 12), (3, 13), (4, 14), (5, 15)]).bind
      (fun m => (insert m 5 99).map
        (fun m2 => (m.len, m2.len, get m2 5))))
      = some (6, 7, some (some 99)) := by decide

/-- Claim C8 (confirmed): in every reachable table state, `insert` runs to
completion: the threshold check keeps occupancy strictly below capacity when
the walk begins (after a resize, occupancy is at most the old capacity, which
is below the doubled one), so an empty slot exists and the displacement walk
reaches an empty slot or an equal key within at most `capacity` steps - the
fuel `capacity` given to every probe loop is never exhausted and no panic
occurs. -/
theorem c8_insert_probe_walk_terminates [DecidableEq K] {m : HashMap K V}
    (key : K) (value : V) (h : Reachable m) :
    (insert m key value).isSome :=
  insert_isSome m key value (reachable_WF h)

/-- Witness for the C8 theorem at a concrete reachable state. -/
theorem c8_insert_probe_walk_terminates_witness :
    (insert (with_capacity 4 constHasher : HashMap Nat Nat) 0 1).isSome :=
  c8_insert_probe_walk_terminates 0 1 (Reachable.init 4 constHasher (by decide))

/-- Claim C9 (refuted by the code): construction with capacity 0 is not
guarded anywhere.  `with_capacity 0` returns an ordinary table (capacity 0,
empty buffer) without assertion or panic, and the remainder-by-zero is then
reached inside the operations: `insert` (whose unconditional resize keeps
capacity at 0 before computing `hash % 0`), `get`, and `remove` all panic
(`none`). -/
theorem c9_capacity_zero_unguarded :
    (with_capacity 0 constHasher : HashMap Nat Nat).capacity = 0 ∧
    (with_capacity 0 constHasher : HashMap Nat Nat).buffer = [] ∧
    insert (with_capacity 0 constHasher : HashMap Nat Nat) 1 2 = none ∧
    get (with_capacity 0 constHasher : HashMap Nat Nat) 1 = none ∧
    remove (with_capacity 0 constHasher : HashMap Nat Nat) 1 = none :=
  ⟨rfl, rfl, rfl, rfl, rfl⟩

/-- A 257-slot buffer: slots 0..255 hold entries of a stranger key (key 0)
with the maximal stored psl 255, slot 256 is empty.  An insert walk entering
at slot 0 advances 256 times before reaching the empty slot, so its u8
candidate-psl counter wraps. -/
def c10buf : List (Option (Elem Nat Nat)) :=
  List.replicate 256 (some ⟨0, 0, 255⟩) ++ [none]

set_option maxRecDepth 100000

/-- Claim C10 (confirmed): psl bookkeeping is 8-bit.  In the embedding every
`psl += 1` of the source is `(psl + 1) % 256` (u8 wrapping); on a walk that
advances 256 slots the candidate is stored with psl `256 % 256 = 0`, not its
true probe distance 256, exhibiting the wrap-around the claim describes. -/
theorem c10_psl_bookkeeping_wraps_u8 :
    (insertLoop 257 c10buf ⟨999, 1, 0⟩ 0 257).map
      (fun r => (r.1[256]?).join.map (fun e => (e.key, e.psl)))
      = some (some (999, 256 % 256)) ∧ 256 % 256 ≠ 256 :=
  ⟨by decide, by decide⟩

end Hash
